import Mathlib

/-!
Shallow embedding of the contact-manager core from `src/main.py`.

Modelling conventions:
* Python `datetime.date` values are triples `(year, month, day)` of naturals
  (`PyDate`).  `date.toordinal()` is `toOrdinal` (proleptic Gregorian rata
  die, `toOrdinal ⟨1,1,1⟩ = 1`), `date.weekday()` is `weekday`
  (Monday = 0), `date.__lt__` is the lexicographic `dateLt`, and
  `d2 - d1 = timedelta(days = toOrdinal d2 - toOrdinal d1)`.
* `date.replace(year=y)` validates the resulting date (including the
  `MINYEAR = 1 ≤ y ≤ 9999 = MAXYEAR` range) and raises `ValueError` on
  failure; it is modelled by the `Option`-valued `replaceYear`.
* Exceptions raised by an operation are modelled with `Except`/`Option`
  results; an operation that can raise after partially reading state but
  never mutates before raising is modelled as a pure function returning
  the outcome together with the (unchanged) post-state.
* Strings are Lean `String`s read as lists of characters, restricted to
  the ASCII fragment: Python's Unicode quirks (e.g. `str.isdigit` accepting
  superscript digits) are outside the model, `Char.isDigit` plays the role
  of Python's digit tests.
-/

structure PyDate where
  year : Nat
  month : Nat
  day : Nat
deriving DecidableEq, Repr

/-- Python leap-year rule (`calendar.isleap` / `datetime`'s internal rule). -/
def isLeap (y : Nat) : Bool :=
  y % 4 == 0 && (y % 100 != 0 || y % 400 == 0)

/-- Number of days in a month, as used by `datetime.date`'s validation. -/
def daysInMonth (y m : Nat) : Nat :=
  if m = 2 then (if isLeap y then 29 else 28)
  else if m = 4 ∨ m = 6 ∨ m = 9 ∨ m = 11 then 30
  else 31

/-- Days in year `y` strictly before month `m` (`_days_before_month`). -/
def daysBeforeMonth (y m : Nat) : Nat :=
  (match m with
   | 1 => 0 | 2 => 31 | 3 => 59 | 4 => 90 | 5 => 120 | 6 => 151
   | 7 => 181 | 8 => 212 | 9 => 243 | 10 => 273 | 11 => 304 | 12 => 334
   | _ => 0)
  + (if 3 ≤ m then (if isLeap y then 1 else 0) else 0)

/-- Calendar validity of a `(year, month, day)` triple (no upper year bound;
the `MAXYEAR` bound of `datetime` is imposed separately by `PyValidDate`). -/
def ValidDate (dte : PyDate) : Prop :=
  1 ≤ dte.year ∧ 1 ≤ dte.month ∧ dte.month ≤ 12 ∧
  1 ≤ dte.day ∧ dte.day ≤ daysInMonth dte.year dte.month

instance (dte : PyDate) : Decidable (ValidDate dte) := by
  unfold ValidDate; infer_instance

/-- A date constructible as a Python `datetime.date` (`MINYEAR ≤ y ≤ MAXYEAR`). -/
def PyValidDate (dte : PyDate) : Prop :=
  ValidDate dte ∧ dte.year ≤ 9999

instance (dte : PyDate) : Decidable (PyValidDate dte) := by
  unfold PyValidDate; infer_instance

/-- `date.toordinal()`: days since 0000-12-31 in the proleptic Gregorian
calendar (CPython's `_ymd2ord`). -/
def toOrdinal (dte : PyDate) : Nat :=
  365 * (dte.year - 1) + (dte.year - 1) / 4 + (dte.year - 1) / 400
    + daysBeforeMonth dte.year dte.month + dte.day - (dte.year - 1) / 100

/-- `date.weekday()`: Monday = 0 … Sunday = 6. -/
def weekday (dte : PyDate) : Nat :=
  (toOrdinal dte + 6) % 7

/-- `date.__lt__`: lexicographic comparison of `(year, month, day)`. -/
def dateLt (a b : PyDate) : Prop :=
  a.year < b.year ∨
    (a.year = b.year ∧ (a.month < b.month ∨ (a.month = b.month ∧ a.day < b.day)))

instance (a b : PyDate) : Decidable (dateLt a b) := by
  unfold dateLt; infer_instance

/-- `date.replace(year=y)`: same month and day with the given year, failing
(`ValueError`) when the result is not a constructible date. -/
def replaceYear (b : PyDate) (y : Nat) : Option PyDate :=
  if PyValidDate ⟨y, b.month, b.day⟩ then some ⟨y, b.month, b.day⟩ else none

/-- Successor day in the proleptic Gregorian calendar. -/
def nextDay (dte : PyDate) : PyDate :=
  if dte.day < daysInMonth dte.year dte.month then ⟨dte.year, dte.month, dte.day + 1⟩
  else if dte.month < 12 then ⟨dte.year, dte.month + 1, 1⟩
  else ⟨dte.year + 1, 1, 1⟩

/-- `d + timedelta(days=k)` for `k ≥ 0`, as iterated day successor. -/
def addDays (dte : PyDate) : Nat → PyDate
  | 0 => dte
  | k + 1 => nextDay (addDays dte k)

/-- Lines 96–99 of `src/main.py`: this year's occurrence of the birthday, or
next year's when this year's is strictly before `today`; `none` when the
underlying `date.replace` raises. -/
def nextOccurrence (today b : PyDate) : Option PyDate :=
  match replaceYear b today.year with
  | none => none
  | some bty => if dateLt bty today then replaceYear b (today.year + 1) else some bty

/-- Lines 104–106 of `src/main.py`: shift a Saturday/Sunday date forward to
the following Monday by adding `7 - weekday` days. -/
def weekendShift (dte : PyDate) : PyDate :=
  if 5 ≤ weekday dte then addDays dte (7 - weekday dte) else dte

/-! ### Date formatting and parsing

`Birthday.__init__` runs `datetime.strptime(value, "%d.%m.%Y")`.  CPython's
`_strptime` compiles that format to the regex
`(3[01]|[12]\d|0[1-9]|[1-9]) \. (1[0-2]|0[1-9]|[1-9]) \. (\d\d\d\d)`
(spaces added), anchored at the start, and rejects the input when characters
remain afterwards; on a match it builds `datetime(year, month, day)`, which
raises `ValueError` for a calendar-invalid combination.  Because every
two-digit branch of the day/month alternations is followed by a mandatory
literal dot, and a one-digit fallback leaves a digit (never a dot) as the
next character, the regex accepts exactly the strings that split on `'.'`
into three dot-free fields: a 1–2 digit day with value `1..31`, a 1–2 digit
month with value `1..12`, and an exactly-4-digit year.  `birthdayParse`
below implements that split-based characterisation; note the leading zero is
optional for `%d` and `%m` (so `"5.6.1990"` parses) while `%Y` demands
exactly four digits.

`strftime("%d.%m.%Y")` (used by `Birthday.__str__` and by
`get_upcoming_birthdays`) is `birthdayFormat`: zero-padded two-digit day and
month; the year is printed as a plain decimal number, NOT zero-padded —
the C library's `%Y` (glibc, BSD and the Windows CRT alike) emits e.g.
`"50"` for year 50, as CPython's documentation footnote on `%Y` warns. -/

def digitToChar (n : Nat) : Char := Char.ofNat (48 + n)

def digitVal (c : Char) : Nat := c.toNat - 48

/-- The decimal value of a digit string (fold, most significant first). -/
def natOfDigits (s : List Char) : Nat :=
  s.foldl (fun a c => 10 * a + digitVal c) 0

def pad2 (n : Nat) : List Char := [digitToChar (n / 10), digitToChar (n % 10)]

def pad4 (n : Nat) : List Char :=
  [digitToChar (n / 1000), digitToChar (n / 100 % 10),
   digitToChar (n / 10 % 10), digitToChar (n % 10)]

/-- The `%Y` directive of `strftime`: the year as an unpadded decimal
numeral (years handed to it are at most four digits). -/
def yearChars (y : Nat) : List Char :=
  if y < 10 then [digitToChar y]
  else if y < 100 then pad2 y
  else if y < 1000 then
    [digitToChar (y / 100), digitToChar (y / 10 % 10), digitToChar (y % 10)]
  else pad4 y

/-- `strftime("%d.%m.%Y")`. -/
def birthdayFormat (dte : PyDate) : String :=
  String.mk (pad2 dte.day ++ '.' :: (pad2 dte.month ++ '.' :: yearChars dte.year))

/-- A 1–2 digit field of `strptime` (`%d` with `mx = 31`, `%m` with
`mx = 12`): all digits, leading zero optional, value in `1..mx`. -/
def fieldNum (mx : Nat) (s : List Char) : Option Nat :=
  if s.all Char.isDigit ∧ (s.length = 1 ∨ s.length = 2) then
    if 1 ≤ natOfDigits s ∧ natOfDigits s ≤ mx then some (natOfDigits s) else none
  else none

/-- The `%Y` field: exactly four digits. -/
def yearNum (s : List Char) : Option Nat :=
  if s.all Char.isDigit ∧ s.length = 4 then some (natOfDigits s) else none

/-- `Birthday.__init__` (lines 30–34 of `src/main.py`):
`datetime.strptime(value, "%d.%m.%Y")`, `none` when it raises `ValueError`
(malformed string or calendar-invalid date). -/
def birthdayParse (s : String) : Option PyDate :=
  match s.data.splitOn '.' with
  | [ds, ms, ys] =>
    match fieldNum 31 ds, fieldNum 12 ms, yearNum ys with
    | some d, some m, some y =>
      if PyValidDate ⟨y, m, d⟩ then some ⟨y, m, d⟩ else none
    | _, _, _ => none
  | _ => none

/-! ### Errors, fields, records -/

/-- The semantic error kinds of §7 of the spec (`ValueError` messages of
`src/main.py`). -/
inductive PyErr where
  | invalidPhone
  | invalidBirthday
  | phoneNotFound
deriving DecidableEq, Repr

namespace Phone

/-- `Phone.validate` (lines 24–26): length exactly 10 and all digits. -/
def validate (s : String) : Bool :=
  s.length == 10 && s.data.all Char.isDigit

/-- `Phone.__init__` (lines 19–22): validate, raising `ValueError`
(`InvalidPhone`) on failure; the stored state is just the value string. -/
def make (s : String) : Except PyErr String :=
  if validate s then .ok s else .error .invalidPhone

end Phone

/-- A `Record` (lines 40–44): name, ordered phone values, optional
birthday.  `Phone` objects are represented by their `value` strings and the
stored `Birthday` datetime by its date component (the only part ever read). -/
structure Record where
  name : String
  phones : List String
  birthday : Option PyDate
deriving DecidableEq, Repr

namespace Record

/-- `Record.__init__` (lines 41–44). -/
def init (name : String) : Record := ⟨name, [], none⟩

/-- `Record.add_phone` (lines 46–47): `Phone(phone)` raises before the
append when invalid, so the record is unchanged on failure. -/
def add_phone (r : Record) (s : String) : Except PyErr Unit × Record :=
  if Phone.validate s then (.ok (), { r with phones := r.phones ++ [s] })
  else (.error .invalidPhone, r)

/-- `Record.remove_phone` (lines 49–50): keep the phones whose value
differs from `s`; never raises. -/
def remove_phone (r : Record) (s : String) : Record :=
  { r with phones := r.phones.filter (fun p => p ≠ s) }

/-- The loop of `Record.edit_phone` (lines 52–59) on the list of phone
values: at the first element equal to `old`, validate `new` (raising
`InvalidPhone` when invalid) and overwrite in place; raise `PhoneNotFound`
when no element matches. -/
def editPhoneList : List String → String → String → Except PyErr (List String)
  | [], _, _ => .error .phoneNotFound
  | p :: ps, old, new =>
    if p = old then
      if Phone.validate new then .ok (new :: ps) else .error .invalidPhone
    else
      match editPhoneList ps old new with
      | .ok ps' => .ok (p :: ps')
      | .error e => .error e

/-- `Record.edit_phone` (lines 52–59); on failure nothing was mutated. -/
def edit_phone (r : Record) (old new : String) : Except PyErr Unit × Record :=
  match editPhoneList r.phones old new with
  | .ok ps => (.ok (), { r with phones := ps })
  | .error e => (.error e, r)

/-- `Record.find_phone` (lines 61–65). -/
def find_phone (r : Record) (s : String) : Option String :=
  r.phones.find? (fun p => p = s)

/-- `Record.add_birthday` (lines 67–68): `Birthday(birthday)` raises before
the assignment when invalid, so the record is unchanged on failure. -/
def add_birthday (r : Record) (s : String) : Except PyErr Unit × Record :=
  match birthdayParse s with
  | some b => (.ok (), { r with birthday := some b })
  | none => (.error .invalidBirthday, r)

end Record

namespace AddressBook

/-- The book's `data` dict as an insertion-ordered association list. -/
def Book := List (String × Record)

/-- `AddressBook.add_record` (lines 77–78): dict assignment keyed by the
record's name — overwrite in place when the key exists, else append. -/
def add_record (book : List (String × Record)) (r : Record) : List (String × Record) :=
  if book.any (fun kv => kv.1 = r.name) then
    book.map (fun kv => if kv.1 = r.name then (kv.1, r) else kv)
  else book ++ [(r.name, r)]

/-- `AddressBook.find` (lines 80–81). -/
def find (book : List (String × Record)) (name : String) : Option Record :=
  (book.find? (fun kv => kv.1 = name)).map Prod.snd

/-- `AddressBook.delete` (lines 83–85): delete the entry when the key is
present, silently do nothing otherwise. -/
def delete (book : List (String × Record)) (name : String) : List (String × Record) :=
  book.filter (fun kv => kv.1 ≠ name)

end AddressBook

/-- `AddressBook.get_upcoming_birthdays` (lines 87–113), over the book's
records in iteration order, with `today` made an explicit parameter
(the source fixes it to `datetime.today().date()`).  For each record with a
birthday: compute `nextOccurrence`; a `ValueError` from `date.replace`
aborts the whole call (`Except.error`); include the record when
`0 ≤ (birthday_this_year - today).days ≤ 7`, emitting the weekend-shifted
occurrence formatted `DD.MM.YYYY`. -/
def get_upcoming_birthdays (records : List Record) (today : PyDate) :
    Except Unit (List (String × String)) :=
  match records with
  | [] => .ok []
  | r :: rs =>
    match r.birthday with
    | none => get_upcoming_birthdays rs today
    | some b =>
      match nextOccurrence today b with
      | none => .error ()
      | some bty =>
        match get_upcoming_birthdays rs today with
        | .error e => .error e
        | .ok tail =>
          if 0 ≤ (toOrdinal bty : Int) - toOrdinal today ∧
              (toOrdinal bty : Int) - toOrdinal today ≤ 7 then
            .ok ((r.name, birthdayFormat (weekendShift bty)) :: tail)
          else .ok tail

/-- The record states reachable through the public `Record` operations
(`__init__`, `add_phone`, `remove_phone`, `edit_phone`, `add_birthday`),
whatever the outcome of each call. -/
inductive ReachableRecord : Record → Prop where
  | init (name : String) : ReachableRecord (Record.init name)
  | add_phone (r : Record) (s : String) :
      ReachableRecord r → ReachableRecord (r.add_phone s).2
  | remove_phone (r : Record) (s : String) :
      ReachableRecord r → ReachableRecord (r.remove_phone s)
  | edit_phone (r : Record) (old new : String) :
      ReachableRecord r → ReachableRecord (r.edit_phone old new).2
  | add_birthday (r : Record) (s : String) :
      ReachableRecord r → ReachableRecord (r.add_birthday s).2

/-! ## Date arithmetic lemmas -/

theorem isLeap_iff (y : Nat) :
    isLeap y = true ↔ (y % 4 = 0 ∧ (y % 100 ≠ 0 ∨ y % 400 = 0)) := by
  simp [isLeap]

theorem one_le_daysInMonth (y m : Nat) : 1 ≤ daysInMonth y m := by
  unfold daysInMonth
  split_ifs <;> omega

theorem daysInMonth_le_31 (y m : Nat) : daysInMonth y m ≤ 31 := by
  unfold daysInMonth
  split_ifs <;> omega

theorem daysBeforeMonth_succ (y m : Nat) (h1 : 1 ≤ m) (h2 : m < 12) :
    daysBeforeMonth y (m + 1) = daysBeforeMonth y m + daysInMonth y m := by
  interval_cases m <;> cases h : isLeap y <;>
    simp [daysBeforeMonth, daysInMonth, h]

theorem toOrdinal_nextDay (dte : PyDate) (hv : ValidDate dte) :
    toOrdinal (nextDay dte) = toOrdinal dte + 1 := by
  obtain ⟨y, m, d⟩ := dte
  obtain ⟨hy, hm1, hm2, hd1, hd2⟩ := hv
  dsimp only at hy hm1 hm2 hd1 hd2
  unfold nextDay
  dsimp only
  split
  · unfold toOrdinal
    dsimp only
    omega
  · rename_i hlt
    split
    · rename_i hm
      have hd : d = daysInMonth y m := by omega
      have hs := daysBeforeMonth_succ y m hm1 hm
      unfold toOrdinal
      dsimp only
      omega
    · rename_i hm
      have hm12 : m = 12 := by omega
      subst hm12
      have h31 : daysInMonth y 12 = 31 := by simp [daysInMonth]
      have hd : d = 31 := by omega
      subst hd
      have hdb1 : ∀ z, daysBeforeMonth z 1 = 0 := by
        intro z; simp [daysBeforeMonth]
      unfold toOrdinal
      dsimp only
      rw [hdb1]
      obtain ⟨z, rfl⟩ : ∃ z, y = z + 1 := ⟨y - 1, by omega⟩
      have h4 := Nat.succ_div z 4
      have h100 := Nat.succ_div z 100
      have h400 := Nat.succ_div z 400
      rcases h : isLeap (z + 1) with _ | _
      · have hdb : daysBeforeMonth (z + 1) 12 = 334 := by simp [daysBeforeMonth, h]
        have hl := isLeap_iff (z + 1)
        rw [h] at hl
        simp only [Bool.false_eq_true, false_iff] at hl
        rw [hdb]
        split_ifs at h4 h100 h400 <;> omega
      · have hdb : daysBeforeMonth (z + 1) 12 = 335 := by simp [daysBeforeMonth, h]
        have hl := (isLeap_iff (z + 1)).mp h
        rw [hdb]
        split_ifs at h4 h100 h400 <;> omega

theorem validDate_nextDay (dte : PyDate) (hv : ValidDate dte) :
    ValidDate (nextDay dte) := by
  obtain ⟨y, m, d⟩ := dte
  obtain ⟨hy, hm1, hm2, hd1, hd2⟩ := hv
  dsimp only at hy hm1 hm2 hd1 hd2
  unfold nextDay
  dsimp only
  split
  · rename_i hlt
    unfold ValidDate
    dsimp only
    exact ⟨hy, hm1, hm2, by omega, by omega⟩
  · rename_i hlt
    split
    · rename_i hm
      unfold ValidDate
      dsimp only
      exact ⟨hy, by omega, by omega, by omega, one_le_daysInMonth _ _⟩
    · rename_i hm
      unfold ValidDate
      dsimp only
      exact ⟨by omega, by omega, by omega, by omega, one_le_daysInMonth _ _⟩

theorem validDate_addDays (dte : PyDate) (hv : ValidDate dte) (k : Nat) :
    ValidDate (addDays dte k) := by
  induction k with
  | zero => exact hv
  | succ n ih => exact validDate_nextDay _ ih

theorem toOrdinal_addDays (dte : PyDate) (hv : ValidDate dte) (k : Nat) :
    toOrdinal (addDays dte k) = toOrdinal dte + k := by
  induction k with
  | zero => rfl
  | succ n ih =>
    have := toOrdinal_nextDay (addDays dte n) (validDate_addDays dte hv n)
    simp only [addDays]
    omega

theorem weekday_lt_7 (dte : PyDate) : weekday dte < 7 :=
  Nat.mod_lt _ (by omega)

theorem weekday_weekendShift (dte : PyDate) (hv : ValidDate dte)
    (h : 5 ≤ weekday dte) : weekday (weekendShift dte) = 0 := by
  have hw7 := weekday_lt_7 dte
  unfold weekendShift
  rw [if_pos h]
  have hadd := toOrdinal_addDays dte hv (7 - weekday dte)
  unfold weekday at *
  omega

theorem weekday_weekendShift_lt_5 (dte : PyDate) (hv : ValidDate dte) :
    weekday (weekendShift dte) < 5 := by
  by_cases h : 5 ≤ weekday dte
  · rw [weekday_weekendShift dte hv h]; omega
  · unfold weekendShift
    rw [if_neg h]
    omega

theorem nextOccurrence_pyValid (t b bty : PyDate)
    (h : nextOccurrence t b = some bty) : PyValidDate bty := by
  unfold nextOccurrence replaceYear at h
  split_ifs at h <;> try simp_all
  split at h <;> simp_all

/-! ## Parsing and formatting lemmas -/

theorem ne_dot_of_isDigit (c : Char) (h : c.isDigit = true) : c ≠ '.' := by
  intro hc
  subst hc
  exact absurd h (by decide)

theorem digitToChar_isDigit (n : Nat) (h : n < 10) :
    (digitToChar n).isDigit = true := by
  interval_cases n <;> decide

theorem digitVal_digitToChar (n : Nat) (h : n < 10) :
    digitVal (digitToChar n) = n := by
  interval_cases n <;> decide

theorem pad2_all_isDigit (n : Nat) (h : n < 100) :
    (pad2 n).all Char.isDigit = true := by
  simp only [pad2, List.all_cons, List.all_nil, Bool.and_true, Bool.and_eq_true]
  exact ⟨digitToChar_isDigit _ (by omega), digitToChar_isDigit _ (by omega)⟩

theorem natOfDigits_pad2 (n : Nat) (h : n < 100) : natOfDigits (pad2 n) = n := by
  simp only [natOfDigits, pad2, List.foldl_cons, List.foldl_nil]
  rw [digitVal_digitToChar _ (by omega), digitVal_digitToChar _ (by omega)]
  omega

theorem pad4_all_isDigit (n : Nat) (h : n < 10000) :
    (pad4 n).all Char.isDigit = true := by
  simp only [pad4, List.all_cons, List.all_nil, Bool.and_true, Bool.and_eq_true]
  exact ⟨digitToChar_isDigit _ (by omega), digitToChar_isDigit _ (by omega),
    digitToChar_isDigit _ (by omega), digitToChar_isDigit _ (by omega)⟩

theorem natOfDigits_pad4 (n : Nat) (h : n < 10000) : natOfDigits (pad4 n) = n := by
  simp only [natOfDigits, pad4, List.foldl_cons, List.foldl_nil]
  rw [digitVal_digitToChar _ (by omega), digitVal_digitToChar _ (by omega),
    digitVal_digitToChar _ (by omega), digitVal_digitToChar _ (by omega)]
  omega

theorem fieldNum_eq_some (mx : Nat) (s : List Char) (v : Nat) :
    fieldNum mx s = some v ↔
      (s.all Char.isDigit = true ∧ (s.length = 1 ∨ s.length = 2) ∧
        natOfDigits s = v ∧ 1 ≤ v ∧ v ≤ mx) := by
  unfold fieldNum
  split_ifs with h1 h2 <;> simp_all <;> omega

theorem yearNum_eq_some (s : List Char) (v : Nat) :
    yearNum s = some v ↔
      (s.all Char.isDigit = true ∧ s.length = 4 ∧ natOfDigits s = v) := by
  unfold yearNum
  split_ifs with h1 <;> simp_all

theorem splitOn_dot_build (ds ms ys : List Char)
    (hd : ds.all Char.isDigit = true) (hm : ms.all Char.isDigit = true)
    (hy : ys.all Char.isDigit = true) :
    (ds ++ '.' :: (ms ++ '.' :: ys)).splitOn '.' = [ds, ms, ys] := by
  have hda : ∀ c ∈ ds, ¬((c == '.') = true) := by
    intro c hc
    simp only [beq_iff_eq]
    exact ne_dot_of_isDigit c (by simp only [List.all_eq_true] at hd; exact hd c hc)
  have hma : ∀ c ∈ ms, ¬((c == '.') = true) := by
    intro c hc
    simp only [beq_iff_eq]
    exact ne_dot_of_isDigit c (by simp only [List.all_eq_true] at hm; exact hm c hc)
  have hya : ∀ c ∈ ys, ¬((c == '.') = true) := by
    intro c hc
    simp only [beq_iff_eq]
    exact ne_dot_of_isDigit c (by simp only [List.all_eq_true] at hy; exact hy c hc)
  unfold List.splitOn
  rw [List.splitOnP_first _ _ hda '.' (by simp), List.splitOnP_first _ _ hma '.' (by simp),
    List.splitOnP_eq_single _ _ hya]

theorem splitOn_dot_sound (s ds ms ys : List Char)
    (h : s.splitOn '.' = [ds, ms, ys]) :
    s = ds ++ '.' :: (ms ++ '.' :: ys) := by
  have hi := List.intercalate_splitOn s '.'
  rw [h] at hi
  rw [← hi]
  simp [List.intercalate]

theorem birthdayParse_some_iff (s : String) (y m d : Nat) :
    birthdayParse s = some ⟨y, m, d⟩ ↔
      ∃ ds ms ys : List Char,
        s.data = ds ++ '.' :: (ms ++ '.' :: ys) ∧
        ds.all Char.isDigit = true ∧ (ds.length = 1 ∨ ds.length = 2) ∧
          natOfDigits ds = d ∧
        ms.all Char.isDigit = true ∧ (ms.length = 1 ∨ ms.length = 2) ∧
          natOfDigits ms = m ∧
        ys.all Char.isDigit = true ∧ ys.length = 4 ∧ natOfDigits ys = y ∧
        ValidDate ⟨y, m, d⟩ ∧ y ≤ 9999 := by
  constructor
  · intro h
    unfold birthdayParse at h
    split at h
    · rename_i ds ms ys hsp
      split at h
      · rename_i d' m' y' hd hm hy
        split_ifs at h with hval
        · obtain ⟨hval1, hval2⟩ := hval
          simp only [Option.some.injEq, PyDate.mk.injEq] at h
          obtain ⟨hy', hm', hd'⟩ := h
          subst hy' hm' hd'
          obtain ⟨hd1, hd2, hd3, hd4, hd5⟩ := (fieldNum_eq_some _ _ _).mp hd
          obtain ⟨hm1, hm2, hm3, hm4, hm5⟩ := (fieldNum_eq_some _ _ _).mp hm
          obtain ⟨hy1, hy2, hy3⟩ := (yearNum_eq_some _ _).mp hy
          exact ⟨ds, ms, ys, splitOn_dot_sound _ _ _ _ hsp,
            hd1, hd2, hd3, hm1, hm2, hm3, hy1, hy2, hy3, hval1, hval2⟩
      · exact absurd h (by simp)
    · rename_i hsp
      exact absurd h (by simp)
  · rintro ⟨ds, ms, ys, hs, hd1, hd2, hd3, hm1, hm2, hm3, hy1, hy2, hy3, hval, h9999⟩
    have hvm1 : 1 ≤ m := hval.2.1
    have hvm2 : m ≤ 12 := hval.2.2.1
    have hvd1 : 1 ≤ d := hval.2.2.2.1
    have hvd2 : d ≤ daysInMonth y m := hval.2.2.2.2
    have hpv : PyValidDate ⟨y, m, d⟩ := ⟨hval, h9999⟩
    unfold birthdayParse
    rw [hs, splitOn_dot_build ds ms ys hd1 hm1 hy1]
    have hdf : fieldNum 31 ds = some d :=
      (fieldNum_eq_some _ _ _).mpr ⟨hd1, hd2, hd3, hvd1,
        le_trans hvd2 (daysInMonth_le_31 y m)⟩
    have hmf : fieldNum 12 ms = some m :=
      (fieldNum_eq_some _ _ _).mpr ⟨hm1, hm2, hm3, hvm1, hvm2⟩
    have hyf : yearNum ys = some y := (yearNum_eq_some _ _).mpr ⟨hy1, hy2, hy3⟩
    dsimp only
    rw [hdf, hmf, hyf]
    dsimp only
    rw [if_pos hpv]

/-! ## Lemmas about the upcoming-birthday calculator -/

theorem upcoming_mem (records : List Record) (today : PyDate)
    (l : List (String × String))
    (hok : get_upcoming_birthdays records today = .ok l) :
    ∀ e ∈ l, ∃ r ∈ records, ∃ b bty, r.birthday = some b ∧
      nextOccurrence today b = some bty ∧
      0 ≤ (toOrdinal bty : Int) - toOrdinal today ∧
      (toOrdinal bty : Int) - toOrdinal today ≤ 7 ∧
      e = (r.name, birthdayFormat (weekendShift bty)) := by
  induction records generalizing l with
  | nil =>
    simp only [get_upcoming_birthdays, Except.ok.injEq] at hok
    subst hok
    intro e he
    exact absurd he (by simp)
  | cons r rs ih =>
    simp only [get_upcoming_birthdays] at hok
    cases hb : r.birthday with
    | none =>
      rw [hb] at hok
      dsimp only at hok
      intro e he
      obtain ⟨r', hr', rest⟩ := ih l hok e he
      exact ⟨r', by simp [hr'], rest⟩
    | some b =>
      rw [hb] at hok
      dsimp only at hok
      cases hno : nextOccurrence today b with
      | none => rw [hno] at hok; exact absurd hok (by simp)
      | some bty =>
        rw [hno] at hok
        dsimp only at hok
        cases hrec : get_upcoming_birthdays rs today with
        | error e0 => rw [hrec] at hok; exact absurd hok (by simp)
        | ok tail =>
          rw [hrec] at hok
          dsimp only at hok
          split_ifs at hok with hcond
          · simp only [Except.ok.injEq] at hok
            subst hok
            intro e he
            rcases List.mem_cons.mp he with he | he
            · exact ⟨r, by simp, b, bty, hb, hno, hcond.1, hcond.2, he⟩
            · obtain ⟨r', hr', rest⟩ := ih tail hrec e he
              exact ⟨r', by simp [hr'], rest⟩
          · simp only [Except.ok.injEq] at hok
            subst hok
            intro e he
            obtain ⟨r', hr', rest⟩ := ih _ hrec e he
            exact ⟨r', by simp [hr'], rest⟩

theorem upcoming_incl (records : List Record) (today : PyDate)
    (l : List (String × String)) (r : Record) (b bty : PyDate)
    (hok : get_upcoming_birthdays records today = .ok l)
    (hr : r ∈ records) (hb : r.birthday = some b)
    (hno : nextOccurrence today b = some bty)
    (hcond : 0 ≤ (toOrdinal bty : Int) - toOrdinal today ∧
      (toOrdinal bty : Int) - toOrdinal today ≤ 7) :
    (r.name, birthdayFormat (weekendShift bty)) ∈ l := by
  induction records generalizing l with
  | nil => exact absurd hr (by simp)
  | cons r0 rs ih =>
    simp only [get_upcoming_birthdays] at hok
    rcases List.mem_cons.mp hr with hr0 | hr0
    · subst hr0
      rw [hb] at hok
      dsimp only at hok
      rw [hno] at hok
      dsimp only at hok
      cases hrec : get_upcoming_birthdays rs today with
      | error e0 => rw [hrec] at hok; exact absurd hok (by simp)
      | ok tail =>
        rw [hrec] at hok
        dsimp only at hok
        rw [if_pos hcond] at hok
        simp only [Except.ok.injEq] at hok
        subst hok
        exact List.mem_cons_self _ _
    · cases hb0 : r0.birthday with
      | none =>
        rw [hb0] at hok
        dsimp only at hok
        exact ih l hok hr0
      | some b0 =>
        rw [hb0] at hok
        dsimp only at hok
        cases hno0 : nextOccurrence today b0 with
        | none => rw [hno0] at hok; exact absurd hok (by simp)
        | some bty0 =>
          rw [hno0] at hok
          dsimp only at hok
          cases hrec : get_upcoming_birthdays rs today with
          | error e0 => rw [hrec] at hok; exact absurd hok (by simp)
          | ok tail =>
            rw [hrec] at hok
            dsimp only at hok
            split_ifs at hok with hcond0 <;>
              simp only [Except.ok.injEq] at hok <;> subst hok
            · exact List.mem_cons_of_mem _ (ih tail hrec hr0)
            · exact ih tail hrec hr0

theorem upcoming_error (records : List Record) (today : PyDate)
    (r : Record) (b : PyDate)
    (hr : r ∈ records) (hb : r.birthday = some b)
    (hno : nextOccurrence today b = none) :
    get_upcoming_birthdays records today = .error () := by
  induction records with
  | nil => exact absurd hr (by simp)
  | cons r0 rs ih =>
    rcases List.mem_cons.mp hr with hr0 | hr0
    · subst hr0
      simp only [get_upcoming_birthdays, hb, hno]
    · cases hb0 : r0.birthday with
      | none =>
        simp only [get_upcoming_birthdays, hb0]
        exact ih hr0
      | some b0 =>
        cases hno0 : nextOccurrence today b0 with
        | none => simp only [get_upcoming_birthdays, hb0, hno0]
        | some bty0 =>
          simp only [get_upcoming_birthdays, hb0, hno0, ih hr0]

/-! ## Lemmas about the record operations -/

theorem editPhoneList_replace (l₁ l₂ : List String) (old new : String)
    (hnot : old ∉ l₁) (hval : Phone.validate new = true) :
    Record.editPhoneList (l₁ ++ old :: l₂) old new = .ok (l₁ ++ new :: l₂) := by
  induction l₁ with
  | nil => simp [Record.editPhoneList, hval]
  | cons p l₁ ih =>
    have hp : p ≠ old := fun h => hnot (by simp [h])
    have h₁ : old ∉ l₁ := fun h => hnot (by simp [h])
    simp only [List.cons_append, Record.editPhoneList, if_neg hp, List.append_eq]
    rw [ih h₁]

theorem editPhoneList_invalid (ps : List String) (old new : String)
    (hmem : old ∈ ps) (hval : Phone.validate new = false) :
    Record.editPhoneList ps old new = .error .invalidPhone := by
  induction ps with
  | nil => exact absurd hmem (by simp)
  | cons p ps ih =>
    by_cases hp : p = old
    · simp [Record.editPhoneList, hp, hval]
    · have hm : old ∈ ps := by
        rcases List.mem_cons.mp hmem with h | h
        · exact absurd h.symm hp
        · exact h
      simp only [Record.editPhoneList, if_neg hp]
      rw [ih hm]

theorem editPhoneList_notFound (ps : List String) (old new : String)
    (hnot : old ∉ ps) :
    Record.editPhoneList ps old new = .error .phoneNotFound := by
  induction ps with
  | nil => rfl
  | cons p ps ih =>
    have hp : p ≠ old := fun h => hnot (by simp [h])
    have hm : old ∉ ps := fun h => hnot (by simp [h])
    simp only [Record.editPhoneList, if_neg hp]
    rw [ih hm]

theorem editPhoneList_ok_all (ps ps' : List String) (old new : String)
    (h : Record.editPhoneList ps old new = .ok ps')
    (hall : ∀ p ∈ ps, Phone.validate p = true) :
    ∀ p ∈ ps', Phone.validate p = true := by
  induction ps generalizing ps' with
  | nil => exact absurd h (by simp [Record.editPhoneList])
  | cons p ps ih =>
    unfold Record.editPhoneList at h
    split_ifs at h with hp hv
    · simp only [Except.ok.injEq] at h
      subst h
      intro q hq
      rcases List.mem_cons.mp hq with hq | hq
      · exact hq ▸ hv
      · exact hall q (by simp [hq])
    · cases hE : Record.editPhoneList ps old new with
      | ok ps0 =>
        rw [hE] at h
        simp only [Except.ok.injEq] at h
        subst h
        intro q hq
        rcases List.mem_cons.mp hq with hq | hq
        · exact hq ▸ hall p (by simp)
        · exact ih ps0 hE (fun x hx => hall x (by simp [hx])) q hq
      | error e =>
        rw [hE] at h
        exact absurd h (by simp)

/-! ## Claim theorems -/

/-- C4: for every string `s`, `Phone.validate s` is true iff `s` has length
exactly 10 and every character is a decimal digit; when validation is false,
`Phone` construction fails with `InvalidPhone`. -/
theorem claim_C4 (s : String) :
    (Phone.validate s = true ↔ s.length = 10 ∧ ∀ c ∈ s.data, c.isDigit = true) ∧
    (Phone.validate s = false → Phone.make s = .error .invalidPhone) := by
  constructor
  · simp [Phone.validate, List.all_eq_true]
  · intro h
    unfold Phone.make
    simp [h]

theorem claim_C4_witness :
    (Phone.validate "123456789" = true ↔
      ("123456789" : String).length = 10 ∧
        ∀ c ∈ ("123456789" : String).data, c.isDigit = true) ∧
    Phone.make "123456789" = .error .invalidPhone :=
  ⟨(claim_C4 "123456789").1, (claim_C4 "123456789").2 (by decide)⟩

/-- C6: `edit_phone` replaces the first phone equal to `old` in place when
`new` is valid (prefix of non-matching phones and the suffix untouched);
when `old` is present but `new` is invalid it fails with `InvalidPhone`
leaving the record unchanged; when no phone equals `old` it fails with
`PhoneNotFound` leaving the record unchanged. -/
theorem claim_C6 (r : Record) (old new : String) :
    (∀ l₁ l₂, r.phones = l₁ ++ old :: l₂ → old ∉ l₁ → Phone.validate new = true →
      r.edit_phone old new = (.ok (), { r with phones := l₁ ++ new :: l₂ })) ∧
    (old ∈ r.phones → Phone.validate new = false →
      r.edit_phone old new = (.error .invalidPhone, r)) ∧
    (old ∉ r.phones → r.edit_phone old new = (.error .phoneNotFound, r)) := by
  refine ⟨?_, ?_, ?_⟩
  · intro l₁ l₂ hsplit hnot hval
    unfold Record.edit_phone
    rw [hsplit, editPhoneList_replace l₁ l₂ old new hnot hval]
  · intro hmem hval
    unfold Record.edit_phone
    rw [editPhoneList_invalid r.phones old new hmem hval]
  · intro hnot
    unfold Record.edit_phone
    rw [editPhoneList_notFound r.phones old new hnot]

theorem claim_C6_witness :
    Record.edit_phone ⟨"A", ["1234567890", "0987654321"], none⟩
        "0987654321" "1112223334"
      = (.ok (), ⟨"A", ["1234567890", "1112223334"], none⟩) ∧
    Record.edit_phone ⟨"A", ["1234567890"], none⟩ "1234567890" "123"
      = (.error .invalidPhone, ⟨"A", ["1234567890"], none⟩) ∧
    Record.edit_phone ⟨"A", ["1234567890"], none⟩ "5550001111" "1112223334"
      = (.error .phoneNotFound, ⟨"A", ["1234567890"], none⟩) :=
  ⟨(claim_C6 _ "0987654321" "1112223334").1 ["1234567890"] [] rfl
      (by decide) (by decide),
    (claim_C6 _ "1234567890" "123").2.1 (by decide) (by decide),
    (claim_C6 _ "5550001111" "1112223334").2.2 (by decide)⟩

/-- C7: failing operations leave the record intact: `add_phone` on an
invalid phone string fails with `InvalidPhone` returning the unchanged
record, and `add_birthday` on an unparsable birthday string fails with
`InvalidBirthday` returning the unchanged record. -/
theorem claim_C7 (r : Record) (s t : String) :
    (Phone.validate s = false → r.add_phone s = (.error .invalidPhone, r)) ∧
    (birthdayParse t = none → r.add_birthday t = (.error .invalidBirthday, r)) := by
  constructor
  · intro h
    unfold Record.add_phone
    simp [h]
  · intro h
    unfold Record.add_birthday
    rw [h]

theorem claim_C7_witness :
    (Record.init "A").add_phone "123" = (.error .invalidPhone, Record.init "A") ∧
    (Record.init "A").add_birthday "31.02.2021"
      = (.error .invalidBirthday, Record.init "A") :=
  ⟨(claim_C7 (Record.init "A") "123" "31.02.2021").1 (by decide),
    (claim_C7 (Record.init "A") "123" "31.02.2021").2 (by decide)⟩

/-- C8: missing-target removals never fail: `delete` removes a present
entry and is a silent no-op on an absent name; `remove_phone` keeps exactly
the phones differing from `raw` and is a no-op when none match. -/
theorem claim_C8 (book : List (String × Record)) (name : String)
    (l₁ l₂ : List (String × Record)) (rec : Record) (r : Record) (raw : String) :
    (name ∉ book.map Prod.fst → AddressBook.delete book name = book) ∧
    (name ∉ l₁.map Prod.fst → name ∉ l₂.map Prod.fst →
      AddressBook.delete (l₁ ++ (name, rec) :: l₂) name = l₁ ++ l₂) ∧
    (∀ p, p ∈ (r.remove_phone raw).phones ↔ (p ∈ r.phones ∧ p ≠ raw)) ∧
    (raw ∉ r.phones → r.remove_phone raw = r) := by
  refine ⟨?_, ?_, ?_, ?_⟩
  · intro h
    unfold AddressBook.delete
    apply List.filter_eq_self.mpr
    intro kv hkv
    have hne : kv.1 ≠ name := fun hEq => h (hEq ▸ List.mem_map_of_mem Prod.fst hkv)
    simpa using hne
  · intro h1 h2
    unfold AddressBook.delete
    have e1 : l₁.filter (fun kv => kv.1 ≠ name) = l₁ := by
      apply List.filter_eq_self.mpr
      intro kv hkv
      have hne : kv.1 ≠ name := fun hEq => h1 (hEq ▸ List.mem_map_of_mem Prod.fst hkv)
      simpa using hne
    have e2 : l₂.filter (fun kv => kv.1 ≠ name) = l₂ := by
      apply List.filter_eq_self.mpr
      intro kv hkv
      have hne : kv.1 ≠ name := fun hEq => h2 (hEq ▸ List.mem_map_of_mem Prod.fst hkv)
      simpa using hne
    rw [List.filter_append, e1, List.filter_cons]
    simp [e2]
    intro a b hab hEq
    exact h2 (hEq ▸ List.mem_map_of_mem Prod.fst hab)
  · intro p
    unfold Record.remove_phone
    simp [List.mem_filter]
  · intro h
    unfold Record.remove_phone
    have he : r.phones.filter (fun p => p ≠ raw) = r.phones := by
      apply List.filter_eq_self.mpr
      intro p hp
      have hne : p ≠ raw := fun hEq => h (hEq ▸ hp)
      simpa using hne
    rw [he]

theorem claim_C8_witness :
    AddressBook.delete [("A", Record.init "A")] "B" = [("A", Record.init "A")] ∧
    AddressBook.delete [("A", Record.init "A"), ("B", Record.init "B")] "A"
      = [("B", Record.init "B")] ∧
    ("x" ∈ ((⟨"A", ["1234567890"], none⟩ : Record).remove_phone "1234567890").phones ↔
      ("x" ∈ (⟨"A", ["1234567890"], none⟩ : Record).phones ∧ "x" ≠ "1234567890")) ∧
    (⟨"A", ["1234567890"], none⟩ : Record).remove_phone "5550001111"
      = ⟨"A", ["1234567890"], none⟩ :=
  ⟨(claim_C8 [("A", Record.init "A")] "B" [] [] (Record.init "A")
        (Record.init "A") "x").1 (by decide),
    (claim_C8 [] "A" [] [("B", Record.init "B")] (Record.init "A")
        (Record.init "A") "x").2.1 (by decide) (by decide),
    (claim_C8 [] "q" [] [] (Record.init "q")
        ⟨"A", ["1234567890"], none⟩ "1234567890").2.2.1 "x",
    (claim_C8 [] "q" [] [] (Record.init "q")
        ⟨"A", ["1234567890"], none⟩ "5550001111").2.2.2 (by decide)⟩

/-- C9: in every record state reachable through the public operations,
every stored phone value passes `Phone.validate` (length 10, all digits). -/
theorem claim_C9 (r : Record) (h : ReachableRecord r) :
    ∀ p ∈ r.phones, Phone.validate p = true := by
  induction h with
  | init name => intro p hp; exact absurd hp (by simp [Record.init])
  | add_phone r s hr ih =>
    intro p hp
    unfold Record.add_phone at hp
    split_ifs at hp with hv
    · dsimp only at hp
      rcases List.mem_append.mp hp with hp | hp
      · exact ih p hp
      · simp only [List.mem_singleton] at hp
        exact hp ▸ hv
    · exact ih p hp
  | remove_phone r s hr ih =>
    intro p hp
    unfold Record.remove_phone at hp
    dsimp only at hp
    exact ih p (List.mem_of_mem_filter hp)
  | edit_phone r old new hr ih =>
    intro p hp
    unfold Record.edit_phone at hp
    cases hE : Record.editPhoneList r.phones old new with
    | ok ps =>
      rw [hE] at hp
      dsimp only at hp
      exact editPhoneList_ok_all r.phones ps old new hE ih p hp
    | error e =>
      rw [hE] at hp
      dsimp only at hp
      exact ih p hp
  | add_birthday r s hr ih =>
    intro p hp
    unfold Record.add_birthday at hp
    cases hB : birthdayParse s with
    | some b =>
      rw [hB] at hp
      dsimp only at hp
      exact ih p hp
    | none =>
      rw [hB] at hp
      dsimp only at hp
      exact ih p hp

theorem claim_C9_witness : Phone.validate "1234567890" = true :=
  claim_C9 _
    (ReachableRecord.add_phone _ "1234567890" (ReachableRecord.init "A"))
    "1234567890" (by decide)

/-- C3 (amended): `Birthday` construction accepts exactly the strings
`day.month.year` where day and month are 1- or 2-digit decimal numerals
(leading zero optional), the year is exactly four digits, and the triple is
a calendar-valid date in years 1–9999; any other string fails with
`InvalidBirthday` and stores nothing. -/
theorem claim_C3 (s : String) (y m d : Nat) (r : Record) :
    (birthdayParse s = some ⟨y, m, d⟩ ↔
      ∃ ds ms ys : List Char,
        s.data = ds ++ '.' :: (ms ++ '.' :: ys) ∧
        ds.all Char.isDigit = true ∧ (ds.length = 1 ∨ ds.length = 2) ∧
          natOfDigits ds = d ∧
        ms.all Char.isDigit = true ∧ (ms.length = 1 ∨ ms.length = 2) ∧
          natOfDigits ms = m ∧
        ys.all Char.isDigit = true ∧ ys.length = 4 ∧ natOfDigits ys = y ∧
        ValidDate ⟨y, m, d⟩ ∧ y ≤ 9999) ∧
    (birthdayParse s = none → r.add_birthday s = (.error .invalidBirthday, r)) :=
  ⟨birthdayParse_some_iff s y m d,
    fun h => by unfold Record.add_birthday; rw [h]⟩

/-- The original C3 is false on the code: the non-zero-padded string
`"5.6.1990"` is accepted by `datetime.strptime(·, "%d.%m.%Y")`, not
rejected. -/
theorem claim_C3_counterexample :
    birthdayParse "5.6.1990" = some ⟨1990, 6, 5⟩ := by decide

theorem claim_C3_witness :
    birthdayParse "05.06.1990" = some ⟨1990, 6, 5⟩ ∧
    (Record.init "B").add_birthday "31.02.2021"
      = (.error .invalidBirthday, Record.init "B") :=
  ⟨(claim_C3 "05.06.1990" 1990 6 5 (Record.init "B")).1.mpr
      ⟨['0', '5'], ['0', '6'], ['1', '9', '9', '0'], by decide, by decide,
        by decide, by decide, by decide, by decide, by decide, by decide,
        by decide, by decide, by decide, by decide⟩,
    (claim_C3 "31.02.2021" 2021 2 31 (Record.init "B")).2 (by decide)⟩

/-- C5 (amended): the parse/format round trip `format (parse s) = s` holds
for every valid zero-padded `DD.MM.YYYY` string whose year is at least
1000; for years below 1000 the platform `strftime` prints `%Y` without the
zero padding, breaking the round trip. -/
theorem claim_C5 (y m d : Nat) (hv : ValidDate ⟨y, m, d⟩)
    (hy1 : 1000 ≤ y) (hy2 : y ≤ 9999) :
    (birthdayParse (String.mk (pad2 d ++ '.' :: (pad2 m ++ '.' :: pad4 y)))).map
        birthdayFormat
      = some (String.mk (pad2 d ++ '.' :: (pad2 m ++ '.' :: pad4 y))) := by
  have hd31 : d ≤ 31 := le_trans hv.2.2.2.2 (daysInMonth_le_31 y m)
  have hm12 : m ≤ 12 := hv.2.2.1
  have hp : birthdayParse (String.mk (pad2 d ++ '.' :: (pad2 m ++ '.' :: pad4 y)))
      = some ⟨y, m, d⟩ :=
    (birthdayParse_some_iff _ y m d).mpr ⟨pad2 d, pad2 m, pad4 y, rfl,
      pad2_all_isDigit d (by omega), Or.inr rfl, natOfDigits_pad2 d (by omega),
      pad2_all_isDigit m (by omega), Or.inr rfl, natOfDigits_pad2 m (by omega),
      pad4_all_isDigit y (by omega), rfl, natOfDigits_pad4 y (by omega),
      hv, hy2⟩
  rw [hp]
  have hyc : yearChars y = pad4 y := by
    unfold yearChars
    rw [if_neg (by omega), if_neg (by omega), if_neg (by omega)]
  simp [birthdayFormat, hyc]

/-- The original C5 is false on the code: `"05.06.0050"` is a valid
`DD.MM.YYYY` string but renders back as `"05.06.50"`. -/
theorem claim_C5_counterexample :
    (birthdayParse "05.06.0050").map birthdayFormat = some "05.06.50" ∧
    (birthdayParse "05.06.0050").map birthdayFormat ≠ some "05.06.0050" := by
  decide

theorem claim_C5_witness :
    ValidDate ⟨1990, 6, 5⟩ ∧
    (birthdayParse (String.mk (pad2 5 ++ '.' :: (pad2 6 ++ '.' :: pad4 1990)))).map
        birthdayFormat
      = some (String.mk (pad2 5 ++ '.' :: (pad2 6 ++ '.' :: pad4 1990))) :=
  ⟨by decide, claim_C5 1990 6 5 (by decide) (by decide) (by decide)⟩

/-- C1: for a record with a birthday, the upcoming-birthday calculator
(when it returns without raising, over a book with distinct names) includes
the contact iff the next occurrence of its birthday — this year's date, or
next year's when this year's is strictly before today, with at most one
year added (`nextOccurrence`) — lies between 0 and 7 days from today
inclusive. -/
theorem claim_C1 (records : List Record) (today : PyDate)
    (l : List (String × String)) (r : Record) (b : PyDate)
    (hnodup : (records.map Record.name).Nodup)
    (hr : r ∈ records) (hb : r.birthday = some b)
    (hok : get_upcoming_birthdays records today = .ok l) :
    (∃ e ∈ l, e.1 = r.name) ↔
      ∃ bty, nextOccurrence today b = some bty ∧
        0 ≤ (toOrdinal bty : Int) - toOrdinal today ∧
        (toOrdinal bty : Int) - toOrdinal today ≤ 7 := by
  constructor
  · rintro ⟨e, he, hname⟩
    obtain ⟨r', hr', b', bty', hb', hno', h0, h7, hee⟩ :=
      upcoming_mem records today l hok e he
    have hrr : r' = r := by
      apply List.inj_on_of_nodup_map hnodup hr' hr
      rw [hee] at hname
      exact hname
    subst hrr
    rw [hb] at hb'
    obtain rfl : b = b' := Option.some.inj hb'
    exact ⟨bty', hno', h0, h7⟩
  · rintro ⟨bty, hno, h0, h7⟩
    exact ⟨(r.name, birthdayFormat (weekendShift bty)),
      upcoming_incl records today l r b bty hok hr hb hno ⟨h0, h7⟩, rfl⟩

theorem claim_C1_witness :
    ∃ e ∈ [("Bob", "17.06.2024")], e.1 = "Bob" :=
  (claim_C1 [⟨"Bob", [], some ⟨1990, 6, 15⟩⟩] ⟨2024, 6, 10⟩
      [("Bob", "17.06.2024")] ⟨"Bob", [], some ⟨1990, 6, 15⟩⟩ ⟨1990, 6, 15⟩
      (by decide) (by decide) rfl rfl).mpr
    ⟨⟨2024, 6, 15⟩, by decide, by decide, by decide⟩

/-- C2: every emitted entry carries the weekend-adjusted congratulation
date: equal to the computed occurrence on weekdays, two days later when it
falls on Saturday (weekday 5) and one day later when it falls on Sunday
(weekday 6) — in both cases the following Monday (weekday 0) — so no
emitted congratulation date is a Saturday or Sunday. -/
theorem claim_C2 (records : List Record) (today : PyDate)
    (l : List (String × String))
    (hok : get_upcoming_birthdays records today = .ok l) :
    ∀ e ∈ l, ∃ r ∈ records, ∃ b bty : PyDate,
      r.birthday = some b ∧
      nextOccurrence today b = some bty ∧
      e = (r.name, birthdayFormat (weekendShift bty)) ∧
      (weekday bty < 5 → weekendShift bty = bty) ∧
      (weekday bty = 5 → weekendShift bty = addDays bty 2) ∧
      (weekday bty = 6 → weekendShift bty = addDays bty 1) ∧
      (5 ≤ weekday bty → weekday (weekendShift bty) = 0) ∧
      weekday (weekendShift bty) < 5 := by
  intro e he
  obtain ⟨r, hr, b, bty, hb, hno, h0, h7, hee⟩ :=
    upcoming_mem records today l hok e he
  have hv : ValidDate bty := (nextOccurrence_pyValid today b bty hno).1
  have hw7 := weekday_lt_7 bty
  refine ⟨r, hr, b, bty, hb, hno, hee, ?_, ?_, ?_,
    fun h => weekday_weekendShift bty hv h, weekday_weekendShift_lt_5 bty hv⟩
  · intro h
    unfold weekendShift
    rw [if_neg (by omega)]
  · intro h
    simp [weekendShift, h]
  · intro h
    simp [weekendShift, h]

theorem claim_C2_witness :
    ∃ r ∈ [(⟨"Bob", [], some ⟨1990, 6, 15⟩⟩ : Record)], ∃ b bty : PyDate,
      r.birthday = some b ∧
      nextOccurrence ⟨2024, 6, 10⟩ b = some bty ∧
      ("Bob", "17.06.2024") = (r.name, birthdayFormat (weekendShift bty)) ∧
      (weekday bty < 5 → weekendShift bty = bty) ∧
      (weekday bty = 5 → weekendShift bty = addDays bty 2) ∧
      (weekday bty = 6 → weekendShift bty = addDays bty 1) ∧
      (5 ≤ weekday bty → weekday (weekendShift bty) = 0) ∧
      weekday (weekendShift bty) < 5 :=
  claim_C2 [⟨"Bob", [], some ⟨1990, 6, 15⟩⟩] ⟨2024, 6, 10⟩
    [("Bob", "17.06.2024")] rfl ("Bob", "17.06.2024") (by decide)

/-- C10: the calculator is not total: any book containing a record whose
birthday is February 29 makes the whole call raise (`Except.error`) when
the reference year is not a leap year, because `date.replace` fails there
instead of returning a list. -/
theorem claim_C10 (records : List Record) (today : PyDate) (r : Record)
    (yb : Nat) (hr : r ∈ records) (hb : r.birthday = some ⟨yb, 2, 29⟩)
    (hleap : isLeap today.year = false) :
    get_upcoming_birthdays records today = .error () := by
  apply upcoming_error records today r ⟨yb, 2, 29⟩ hr hb
  have h28 : daysInMonth today.year 2 = 28 := by simp [daysInMonth, hleap]
  have hnv : ¬ PyValidDate ⟨today.year, 2, 29⟩ := by
    intro hpv
    have h29 : (29 : Nat) ≤ daysInMonth today.year 2 := hpv.1.2.2.2.2
    omega
  unfold nextOccurrence replaceYear
  dsimp only
  rw [if_neg hnv]

theorem claim_C10_witness :
    get_upcoming_birthdays [⟨"Ann", [], some ⟨2000, 2, 29⟩⟩] ⟨2023, 1, 1⟩
      = .error () :=
  claim_C10 [⟨"Ann", [], some ⟨2000, 2, 29⟩⟩] ⟨2023, 1, 1⟩
    ⟨"Ann", [], some ⟨2000, 2, 29⟩⟩ 2000 (by decide) rfl (by decide)
